import Mathlib

/-!
Shallow embedding of `src/time-awwter.py`: the chunked, per-key
asynchronous query dispatcher with trace correlation and fail-fast
error semantics.

The embedded pieces are:
- `chunked_iterable` (source lines 211-227): a generator that slices an
  iterable into tuples of at most `size` elements, printing each chunk
  before yielding it; for a negative `size`, `itertools.islice` raises
  `ValueError` on the first pull, and for `size = 0` the first slice is
  empty so the generator stops at once, yielding nothing.
- `execute_select` (source lines 165-209): for each primary key `u` of a
  chunk, in order, submit `session.execute_async(..., trace=True)`,
  immediately await `item.result()`, fetch `item.get_query_trace()`, and
  print one line `u e.source_elapsed e.description` per trace event; any
  exception in that per-key body is caught, a line naming `u` and
  `x.args[0]` is printed, and `sys.exit(1)` ends the process.  If the
  exception's `args` tuple is empty, `x.args[0]` itself raises
  `IndexError` inside the handler, so the report line is never printed.
- the `__main__` driver (source lines 282-283): iterates the chunks in
  order and feeds each one to `execute_select`.

The per-key result of the store (a success with a list of trace
events, or an exception raised while awaiting the rows or while
retrieving the trace) is an input of the model: each occurrence of a
key in the run is paired with the outcome the store gives that call.
-/

/-- One server-side trace event: `(source_elapsed, description)`. -/
structure TraceEvent where
  source_elapsed : Int
  description : String
deriving DecidableEq, Repr

/-- What the store does for one executed query of one key occurrence:
the rows and the trace both arrive (`success`, with the trace's event
list, possibly empty), or `item.result()` raises (`rowsError`), or the
rows arrive but `item.get_query_trace()` raises (`traceError`).  A
raised Python exception carries its `args` tuple, here a list of
strings (possibly empty). -/
inductive QueryOutcome where
  | success (events : List TraceEvent)
  | rowsError (args : List String)
  | traceError (args : List String)
deriving DecidableEq, Repr

/-- A line of standard output. -/
inductive Line where
  | record (key : String) (elapsed : Int) (descr : String)
  | errorReport (key : String) (msg : String)
  | chunkEcho (keys : List String)
deriving DecidableEq, Repr

/-- How the run ends: the loops finish (`normal`), `sys.exit(1)` after
printing the failure report (`exitOne`), or the uncaught `IndexError`
from `x.args[0]` on an empty `args` tuple (`crashIndexError`). -/
inductive Termination where
  | normal
  | exitOne
  | crashIndexError
deriving DecidableEq, Repr

/-- Output printed so far together with how control left the code. -/
structure ExecResult where
  output : List Line
  term : Termination
deriving DecidableEq, Repr

/-- The lines `print(u, e.source_elapsed, e.description)` printed for
one key from its trace events, in the order the store reports them. -/
def recordsFor (u : String) (events : List TraceEvent) : List Line :=
  events.map (fun e => Line.record u e.source_elapsed e.description)

/-- The per-key loop of `execute_select` (source lines 197-209): for
each key occurrence, submit, await the rows, fetch the trace and print
its events; on an exception, print the report from `x.args[0]` and
`sys.exit(1)`, or crash with `IndexError` when `args` is empty. -/
def execute_select : List (String × QueryOutcome) → ExecResult
  | [] => ⟨[], Termination.normal⟩
  | (u, QueryOutcome.success evs) :: rest =>
    let r := execute_select rest
    ⟨recordsFor u evs ++ r.output, r.term⟩
  | (u, QueryOutcome.rowsError (msg :: _)) :: _ =>
    ⟨[Line.errorReport u msg], Termination.exitOne⟩
  | (_, QueryOutcome.rowsError []) :: _ =>
    ⟨[], Termination.crashIndexError⟩
  | (u, QueryOutcome.traceError (msg :: _)) :: _ =>
    ⟨[Line.errorReport u msg], Termination.exitOne⟩
  | (_, QueryOutcome.traceError []) :: _ =>
    ⟨[], Termination.crashIndexError⟩

/-- The successive slices of the generator loop of `chunked_iterable`
for a positive slice size (the `size = 0` case, where the first slice
is already empty, is the `[]` result of the guard). -/
def chunksOf (s : Nat) : List α → List (List α)
  | [] => []
  | x :: xs =>
    if _h : s = 0 then []
    else List.take s (x :: xs) :: chunksOf s (List.drop s (x :: xs))
termination_by l => l.length
decreasing_by
  simp only [List.length_drop, List.length_cons]
  omega

/-- `chunked_iterable(iterable, size)` (source lines 211-227), fully
consumed: for a negative size `itertools.islice` raises `ValueError`
on the first pull of the generator; otherwise the generator yields the
successive nonempty slices and stops at the first empty one. -/
def chunked_iterable (l : List α) (size : Int) : Except String (List (List α)) :=
  if size < 0 then
    Except.error "ValueError: Stop argument for islice() must be None or an integer: 0 <= x <= sys.maxsize."
  else
    Except.ok (chunksOf size.toNat l)

/-- The driver loop of `__main__` (source lines 282-283) over the
already-produced chunks: each pull of the generator prints the chunk
(`print(chunk)` precedes the `yield`), then `execute_select` runs on
it; `sys.exit(1)` or a crash inside `execute_select` ends the process,
so later chunks are never pulled. -/
def runChunks : List (List (String × QueryOutcome)) → ExecResult
  | [] => ⟨[], Termination.normal⟩
  | c :: cs =>
    let r := execute_select c
    match r.term with
    | Termination.normal =>
      let rest := runChunks cs
      ⟨Line.chunkEcho (c.map Prod.fst) :: (r.output ++ rest.output), rest.term⟩
    | t => ⟨Line.chunkEcho (c.map Prod.fst) :: r.output, t⟩

/-- The whole run: chunk the key occurrences (each paired with its
outcome) and feed the chunks to `execute_select` in order. -/
def run (pairs : List (String × QueryOutcome)) (size : Int) :
    Except String ExecResult :=
  (chunked_iterable pairs size).map runChunks

/-- The trace events of a successful outcome (and `[]` otherwise). -/
def eventsOf : QueryOutcome → List TraceEvent
  | QueryOutcome.success evs => evs
  | _ => []

/-- Whether an outcome is a success. -/
def isSuccess : QueryOutcome → Bool
  | QueryOutcome.success _ => true
  | _ => false

/-- Whether a line is a per-trace-event record `key elapsed descr`. -/
def isRecord : Line → Bool
  | Line.record _ _ _ => true
  | _ => false

/-- Whether a line is a failure report naming a key and a message. -/
def isReport : Line → Bool
  | Line.errorReport _ _ => true
  | _ => false

/-- The record lines of an output stream. -/
def recordLines (out : List Line) : List Line :=
  out.filter isRecord

/-- The failure-report lines of an output stream. -/
def reportLines (out : List Line) : List Line :=
  out.filter isReport

/-- The record lines a chunk produces when every outcome in it
succeeds: one contiguous block per key occurrence, blocks in
submission order, events within a block in store order. -/
def blockOutput (c : List (String × QueryOutcome)) : List Line :=
  c.flatMap (fun p => recordsFor p.1 (eventsOf p.2))

/-- One driver-level call on the session for one key occurrence:
`session.execute_async(...)` (`submit`) or `item.result()`
(`awaited`). -/
inductive DispatchEvent where
  | submit (key : String)
  | awaited (key : String)
deriving DecidableEq, Repr

/-- The order in which the loop of `execute_select` (source lines
197-206) calls the session: for each key occurrence in turn, it
submits the query and then immediately awaits it, before touching the
next key. -/
def dispatchTrace : List String → List DispatchEvent
  | [] => []
  | u :: rest =>
    DispatchEvent.submit u :: DispatchEvent.awaited u :: dispatchTrace rest

/-- Whether a dispatch event is a submission. -/
def isSubmit : DispatchEvent → Bool
  | DispatchEvent.submit _ => true
  | _ => false

/-- The property that every submission precedes every await in a
dispatch trace, i.e. the submissions form a prefix of the trace. -/
def submitsFirst (t : List DispatchEvent) : Prop :=
  t.Pairwise (fun a b => isSubmit b = true → isSubmit a = true)

instance (t : List DispatchEvent) : Decidable (submitsFirst t) :=
  List.instDecidablePairwise t

example :
    chunksOf 2 ["a", "b", "c", "d", "e"] = [["a", "b"], ["c", "d"], ["e"]] := by
  simp [chunksOf]

example : chunked_iterable ["a"] (0 : Int) = Except.ok [] := by
  simp [chunked_iterable, chunksOf]

example :
    execute_select [("a", QueryOutcome.success [⟨3, "step"⟩])] =
      ⟨[Line.record "a" 3 "step"], Termination.normal⟩ := by
  decide

theorem chunksOf_nil (s : Nat) : chunksOf s ([] : List α) = [] := by
  simp [chunksOf]

theorem chunksOf_zero (l : List α) : chunksOf 0 l = [] := by
  cases l <;> simp [chunksOf]

theorem chunksOf_cons_pos (s : Nat) (hs : 1 ≤ s) (x : α) (xs : List α) :
    chunksOf s (x :: xs) =
      List.take s (x :: xs) :: chunksOf s (List.drop s (x :: xs)) := by
  simp only [chunksOf]
  rw [dif_neg (by omega : ¬ s = 0)]

theorem chunksOf_ne_nil_eq (s : Nat) (hs : 1 ≤ s) (l : List α) (hl : l ≠ []) :
    chunksOf s l = List.take s l :: chunksOf s (List.drop s l) := by
  match l with
  | [] => exact absurd rfl hl
  | x :: xs => exact chunksOf_cons_pos s hs x xs

theorem blockOutput_nil : blockOutput [] = [] := rfl

theorem blockOutput_cons (p : String × QueryOutcome)
    (c : List (String × QueryOutcome)) :
    blockOutput (p :: c) = recordsFor p.1 (eventsOf p.2) ++ blockOutput c := by
  simp [blockOutput]

theorem blockOutput_append (a b : List (String × QueryOutcome)) :
    blockOutput (a ++ b) = blockOutput a ++ blockOutput b := by
  simp [blockOutput]

theorem recordLines_recordsFor (u : String) (evs : List TraceEvent) :
    recordLines (recordsFor u evs) = recordsFor u evs := by
  induction evs with
  | nil => rfl
  | cons e t _ =>
    simp [recordsFor, recordLines, isRecord, List.filter_cons]

theorem reportLines_recordsFor (u : String) (evs : List TraceEvent) :
    reportLines (recordsFor u evs) = [] := by
  induction evs with
  | nil => rfl
  | cons e t _ =>
    simp [recordsFor, reportLines, isReport, List.filter_cons]

theorem recordLines_blockOutput (c : List (String × QueryOutcome)) :
    recordLines (blockOutput c) = blockOutput c := by
  induction c with
  | nil => rfl
  | cons p t ih =>
    rw [blockOutput_cons]
    rw [recordLines, List.filter_append]
    rw [← recordLines, ← recordLines, ih, recordLines_recordsFor]

theorem reportLines_blockOutput (c : List (String × QueryOutcome)) :
    reportLines (blockOutput c) = [] := by
  induction c with
  | nil => rfl
  | cons p t ih =>
    rw [blockOutput_cons]
    rw [reportLines, List.filter_append]
    rw [← reportLines, ← reportLines, ih, reportLines_recordsFor]
    rfl

theorem execute_select_all_ok :
    ∀ c : List (String × QueryOutcome), (∀ p ∈ c, isSuccess p.2 = true) →
      execute_select c = ⟨blockOutput c, Termination.normal⟩ := by
  intro c
  induction c with
  | nil => intro _; rfl
  | cons p rest ih =>
    intro h
    obtain ⟨u, o⟩ := p
    match o with
    | QueryOutcome.success evs =>
      have hr := ih (fun q hq => h q (List.mem_cons_of_mem _ hq))
      rw [execute_select]
      rw [hr, blockOutput_cons]
      simp [eventsOf]
    | QueryOutcome.rowsError a =>
      have := h (u, QueryOutcome.rowsError a) (List.mem_cons_self _ _)
      simp [isSuccess] at this
    | QueryOutcome.traceError a =>
      have := h (u, QueryOutcome.traceError a) (List.mem_cons_self _ _)
      simp [isSuccess] at this

theorem execute_select_failure_head (u msg : String) (more : List String)
    (fo : QueryOutcome)
    (hfo : fo = QueryOutcome.rowsError (msg :: more) ∨
      fo = QueryOutcome.traceError (msg :: more))
    (c2 : List (String × QueryOutcome)) :
    execute_select ((u, fo) :: c2) =
      ⟨[Line.errorReport u msg], Termination.exitOne⟩ := by
  rcases hfo with h | h <;> subst h <;> rfl

theorem execute_select_fail_append (u msg : String) (more : List String)
    (fo : QueryOutcome)
    (hfo : fo = QueryOutcome.rowsError (msg :: more) ∨
      fo = QueryOutcome.traceError (msg :: more)) :
    ∀ c1 : List (String × QueryOutcome), (∀ p ∈ c1, isSuccess p.2 = true) →
    ∀ c2 : List (String × QueryOutcome),
      execute_select (c1 ++ (u, fo) :: c2) =
        ⟨blockOutput c1 ++ [Line.errorReport u msg], Termination.exitOne⟩ := by
  intro c1
  induction c1 with
  | nil =>
    intro _ c2
    rw [List.nil_append, execute_select_failure_head u msg more fo hfo c2]
    rw [blockOutput_nil, List.nil_append]
  | cons p rest ih =>
    intro h c2
    obtain ⟨v, o⟩ := p
    match o with
    | QueryOutcome.success evs =>
      have hr := ih (fun q hq => h q (List.mem_cons_of_mem _ hq)) c2
      rw [List.cons_append, execute_select]
      rw [hr, blockOutput_cons]
      simp [eventsOf]
    | QueryOutcome.rowsError a =>
      have := h (v, QueryOutcome.rowsError a) (List.mem_cons_self _ _)
      simp [isSuccess] at this
    | QueryOutcome.traceError a =>
      have := h (v, QueryOutcome.traceError a) (List.mem_cons_self _ _)
      simp [isSuccess] at this

theorem chunksOf_flatten_bound (s : Nat) (hs : 1 ≤ s) :
    ∀ (n : Nat) (l : List α), l.length ≤ n → (chunksOf s l).flatten = l := by
  intro n
  induction n with
  | zero =>
    intro l hl
    have hnil : l = [] := List.eq_nil_of_length_eq_zero (Nat.le_zero.mp hl)
    subst hnil
    simp [chunksOf_nil]
  | succ n ih =>
    intro l hl
    match l with
    | [] => simp [chunksOf_nil]
    | x :: xs =>
      rw [chunksOf_cons_pos s hs x xs, List.flatten_cons]
      rw [ih (List.drop s (x :: xs))
        (by simp only [List.length_drop, List.length_cons]
            simp only [List.length_cons] at hl
            omega)]
      exact List.take_append_drop s (x :: xs)

theorem chunksOf_flatten (s : Nat) (hs : 1 ≤ s) (l : List α) :
    (chunksOf s l).flatten = l :=
  chunksOf_flatten_bound s hs l.length l (Nat.le_refl _)

theorem chunksOf_mem_length_bound (s : Nat) (hs : 1 ≤ s) :
    ∀ (n : Nat) (l : List α), l.length ≤ n → ∀ c ∈ chunksOf s l,
      1 ≤ c.length ∧ c.length ≤ s := by
  intro n
  induction n with
  | zero =>
    intro l hl
    have hnil : l = [] := List.eq_nil_of_length_eq_zero (Nat.le_zero.mp hl)
    subst hnil
    simp [chunksOf_nil]
  | succ n ih =>
    intro l hl c hc
    match l with
    | [] => rw [chunksOf_nil] at hc; simp at hc
    | x :: xs =>
      rw [chunksOf_cons_pos s hs x xs] at hc
      rcases List.mem_cons.mp hc with h | h
      · subst h
        rw [List.length_take]
        simp only [List.length_cons]
        omega
      · exact ih (List.drop s (x :: xs))
          (by simp only [List.length_drop, List.length_cons]
              simp only [List.length_cons] at hl
              omega) c h

theorem chunksOf_dropLast_bound (s : Nat) (hs : 1 ≤ s) :
    ∀ (n : Nat) (l : List α), l.length ≤ n →
      ∀ c ∈ (chunksOf s l).dropLast, c.length = s := by
  intro n
  induction n with
  | zero =>
    intro l hl
    have hnil : l = [] := List.eq_nil_of_length_eq_zero (Nat.le_zero.mp hl)
    subst hnil
    simp [chunksOf_nil]
  | succ n ih =>
    intro l hl c hc
    match l with
    | [] => rw [chunksOf_nil] at hc; simp at hc
    | x :: xs =>
      rw [chunksOf_cons_pos s hs x xs] at hc
      match ht : chunksOf s (List.drop s (x :: xs)) with
      | [] => rw [ht] at hc; simp at hc
      | y :: ys =>
        rw [ht] at hc
        have hdrop_ne : List.drop s (x :: xs) ≠ [] := by
          intro hd
          rw [hd, chunksOf_nil] at ht
          exact List.noConfusion ht
        have hlen : s < (x :: xs).length := by
          have := List.length_pos.mpr hdrop_ne
          simp only [List.length_drop] at this
          omega
        simp only [List.dropLast] at hc
        rcases List.mem_cons.mp hc with h | h
        · subst h
          rw [List.length_take]
          omega
        · have := ih (List.drop s (x :: xs))
            (by simp only [List.length_drop, List.length_cons]
                simp only [List.length_cons] at hl
                omega) c
          rw [ht] at this
          exact this (by simpa [List.dropLast] using h)

theorem chunksOf_mem_ne_nil (s : Nat) (l : List α) (c : List α)
    (hc : c ∈ chunksOf s l) : c ≠ [] := by
  match s with
  | 0 => rw [chunksOf_zero] at hc; simp at hc
  | s + 1 =>
    have h := chunksOf_mem_length_bound (s + 1) (by omega) l.length l
      (Nat.le_refl _) c hc
    exact List.ne_nil_of_length_pos (by omega)

theorem recordLines_cons_echo (ks : List String) (t : List Line) :
    recordLines (Line.chunkEcho ks :: t) = recordLines t := by
  simp [recordLines, List.filter_cons, isRecord]

theorem reportLines_cons_echo (ks : List String) (t : List Line) :
    reportLines (Line.chunkEcho ks :: t) = reportLines t := by
  simp [reportLines, List.filter_cons, isReport]

theorem recordLines_append (a b : List Line) :
    recordLines (a ++ b) = recordLines a ++ recordLines b := by
  simp [recordLines, List.filter_append]

theorem reportLines_append (a b : List Line) :
    reportLines (a ++ b) = reportLines a ++ reportLines b := by
  simp [reportLines, List.filter_append]

theorem runChunks_cons_normal (c : List (String × QueryOutcome))
    (cs : List (List (String × QueryOutcome)))
    (h : (execute_select c).term = Termination.normal) :
    runChunks (c :: cs) =
      ⟨Line.chunkEcho (c.map Prod.fst) ::
        ((execute_select c).output ++ (runChunks cs).output),
        (runChunks cs).term⟩ := by
  rw [runChunks]
  rw [h]

theorem runChunks_cons_exitOne (c : List (String × QueryOutcome))
    (cs : List (List (String × QueryOutcome)))
    (h : (execute_select c).term = Termination.exitOne) :
    runChunks (c :: cs) =
      ⟨Line.chunkEcho (c.map Prod.fst) :: (execute_select c).output,
        Termination.exitOne⟩ := by
  rw [runChunks]
  rw [h]

theorem runChunks_cons_crash (c : List (String × QueryOutcome))
    (cs : List (List (String × QueryOutcome)))
    (h : (execute_select c).term = Termination.crashIndexError) :
    runChunks (c :: cs) =
      ⟨Line.chunkEcho (c.map Prod.fst) :: (execute_select c).output,
        Termination.crashIndexError⟩ := by
  rw [runChunks]
  rw [h]

theorem runChunks_chunksOf_fail_lt (s : Nat) (hs : 1 ≤ s) (u msg : String)
    (more : List String) (fo : QueryOutcome)
    (hfo : fo = QueryOutcome.rowsError (msg :: more) ∨
      fo = QueryOutcome.traceError (msg :: more))
    (pre post : List (String × QueryOutcome))
    (hpre : ∀ p ∈ pre, isSuccess p.2 = true)
    (hlt : pre.length < s) :
    ∃ before : List Line,
      (runChunks (chunksOf s (pre ++ (u, fo) :: post))).output =
        before ++ [Line.errorReport u msg] ∧
      recordLines before = blockOutput pre ∧
      reportLines before = [] ∧
      (runChunks (chunksOf s (pre ++ (u, fo) :: post))).term =
        Termination.exitOne := by
  have hne : pre ++ (u, fo) :: post ≠ [] := by simp
  have htake : List.take s (pre ++ (u, fo) :: post) =
      pre ++ (u, fo) :: List.take (s - pre.length - 1) post := by
    rw [List.take_append_eq_append_take,
      List.take_of_length_le (Nat.le_of_lt hlt)]
    congr 1
    obtain ⟨k, hk⟩ : ∃ k, s - pre.length = k + 1 :=
      ⟨s - pre.length - 1, by omega⟩
    rw [hk, List.take_succ_cons]
    simp
  have hexec := execute_select_fail_append u msg more fo hfo pre hpre
    (List.take (s - pre.length - 1) post)
  have hrun : runChunks (chunksOf s (pre ++ (u, fo) :: post)) =
      ⟨Line.chunkEcho
          ((pre ++ (u, fo) :: List.take (s - pre.length - 1) post).map Prod.fst) ::
        (blockOutput pre ++ [Line.errorReport u msg]),
        Termination.exitOne⟩ := by
    rw [chunksOf_ne_nil_eq s hs _ hne, htake]
    rw [runChunks_cons_exitOne _ _ (by rw [hexec])]
    rw [hexec]
  refine ⟨Line.chunkEcho
      ((pre ++ (u, fo) :: List.take (s - pre.length - 1) post).map Prod.fst) ::
    blockOutput pre, ?_, ?_, ?_, ?_⟩
  · rw [hrun]; simp
  · rw [recordLines_cons_echo, recordLines_blockOutput]
  · rw [reportLines_cons_echo, reportLines_blockOutput]
  · rw [hrun]

theorem runChunks_chunksOf_fail (s : Nat) (hs : 1 ≤ s) (u msg : String)
    (more : List String) (fo : QueryOutcome)
    (hfo : fo = QueryOutcome.rowsError (msg :: more) ∨
      fo = QueryOutcome.traceError (msg :: more)) :
    ∀ (n : Nat) (pre post : List (String × QueryOutcome)), pre.length ≤ n →
      (∀ p ∈ pre, isSuccess p.2 = true) →
      ∃ before : List Line,
        (runChunks (chunksOf s (pre ++ (u, fo) :: post))).output =
          before ++ [Line.errorReport u msg] ∧
        recordLines before = blockOutput pre ∧
        reportLines before = [] ∧
        (runChunks (chunksOf s (pre ++ (u, fo) :: post))).term =
          Termination.exitOne := by
  intro n
  induction n with
  | zero =>
    intro pre post hl hpre
    exact runChunks_chunksOf_fail_lt s hs u msg more fo hfo pre post hpre
      (by omega)
  | succ n ih =>
    intro pre post hl hpre
    by_cases hlt : pre.length < s
    · exact runChunks_chunksOf_fail_lt s hs u msg more fo hfo pre post hpre hlt
    · have hle : s ≤ pre.length := Nat.le_of_not_lt hlt
      have hne : pre ++ (u, fo) :: post ≠ [] := by simp
      have htake : List.take s (pre ++ (u, fo) :: post) = List.take s pre :=
        List.take_append_of_le_length hle
      have hdrop : List.drop s (pre ++ (u, fo) :: post) =
          List.drop s pre ++ (u, fo) :: post :=
        List.drop_append_of_le_length hle
      have hexec : execute_select (List.take s pre) =
          ⟨blockOutput (List.take s pre), Termination.normal⟩ :=
        execute_select_all_ok _ (fun p hp => hpre p (List.take_subset s pre hp))
      obtain ⟨b, hout, hrec, hrep, hterm⟩ := ih (List.drop s pre) post
        (by simp only [List.length_drop]; omega)
        (fun p hp => hpre p (List.drop_subset s pre hp))
      have hrun : runChunks (chunksOf s (pre ++ (u, fo) :: post)) =
          ⟨Line.chunkEcho ((List.take s pre).map Prod.fst) ::
            (blockOutput (List.take s pre) ++
              (runChunks (chunksOf s (List.drop s pre ++ (u, fo) :: post))).output),
            (runChunks (chunksOf s (List.drop s pre ++ (u, fo) :: post))).term⟩ := by
        rw [chunksOf_ne_nil_eq s hs _ hne, htake, hdrop]
        rw [runChunks_cons_normal _ _ (by rw [hexec])]
        rw [hexec]
      refine ⟨Line.chunkEcho ((List.take s pre).map Prod.fst) ::
        (blockOutput (List.take s pre) ++ b), ?_, ?_, ?_, ?_⟩
      · rw [hrun]
        simp only [hout]
        simp [List.append_assoc]
      · rw [recordLines_cons_echo, recordLines_append, recordLines_blockOutput,
          hrec]
        rw [← blockOutput_append, List.take_append_drop]
      · rw [reportLines_cons_echo, reportLines_append, reportLines_blockOutput,
          hrep]
        rfl
      · rw [hrun]
        exact hterm

theorem chunked_iterable_pos (l : List α) (n : Int) (hn : 1 ≤ n) :
    chunked_iterable l n = Except.ok (chunksOf n.toNat l) := by
  rw [chunked_iterable, if_neg (by omega : ¬ n < 0)]

theorem runChunks_echo_blocks :
    ∀ cs : List (List (String × QueryOutcome)), ∃ m : Nat, m ≤ cs.length ∧
      (runChunks cs).output = (cs.take m).flatMap
        (fun c => Line.chunkEcho (c.map Prod.fst) :: (execute_select c).output) := by
  intro cs
  induction cs with
  | nil => exact ⟨0, by simp, by simp [runChunks]⟩
  | cons c cs ih =>
    match hterm : (execute_select c).term with
    | Termination.normal =>
      obtain ⟨m, hm, hout⟩ := ih
      refine ⟨m + 1, by simp only [List.length_cons]; omega, ?_⟩
      rw [runChunks_cons_normal c cs hterm]
      simp only [List.take_succ_cons, List.flatMap_cons]
      rw [← hout]
      simp
    | Termination.exitOne =>
      refine ⟨1, by simp only [List.length_cons]; omega, ?_⟩
      rw [runChunks_cons_exitOne c cs hterm]
      simp [List.flatMap_cons]
    | Termination.crashIndexError =>
      refine ⟨1, by simp only [List.length_cons]; omega, ?_⟩
      rw [runChunks_cons_crash c cs hterm]
      simp [List.flatMap_cons]

theorem blockOutput_length (c : List (String × QueryOutcome)) :
    (blockOutput c).length = (c.map (fun p => (eventsOf p.2).length)).sum := by
  simp [blockOutput, List.length_flatMap, recordsFor, Function.comp_def]

theorem execute_select_trace_eq_rows (u : String) (args : List String) :
    ∀ c1 c2 : List (String × QueryOutcome),
      execute_select (c1 ++ (u, QueryOutcome.traceError args) :: c2) =
        execute_select (c1 ++ (u, QueryOutcome.rowsError args) :: c2) := by
  intro c1
  induction c1 with
  | nil =>
    intro c2
    cases args <;> rfl
  | cons p t ih =>
    intro c2
    obtain ⟨v, o⟩ := p
    cases o with
    | success evs =>
      simp only [List.cons_append, execute_select, List.append_eq]
      rw [ih]
    | rowsError a => cases a <;> rfl
    | traceError a => cases a <;> rfl

/-- C1: for a chunk whose Queries all succeed, `execute_select` prints
exactly the per-key record blocks: one `key elapsed description`
record per trace event, the records of each key occurrence forming a
contiguous block in the order the store reports the events, blocks in
within-chunk submission order; the total count is the sum of the
per-key trace-event counts, and control returns normally. -/
theorem executor_success_emits_blocks
    (chunk : List (String × QueryOutcome))
    (h : ∀ p ∈ chunk, isSuccess p.2 = true) :
    (execute_select chunk).output = blockOutput chunk ∧
    (execute_select chunk).output.length =
      (chunk.map (fun p => (eventsOf p.2).length)).sum ∧
    (execute_select chunk).term = Termination.normal := by
  have he := execute_select_all_ok chunk h
  rw [he]
  exact ⟨rfl, blockOutput_length chunk, rfl⟩

theorem executor_success_emits_blocks_witness :
    (∀ p ∈ [("a", QueryOutcome.success [⟨1, "e1"⟩, ⟨2, "e2"⟩]),
        ("b", QueryOutcome.success [⟨5, "e3"⟩])], isSuccess p.2 = true) ∧
    ((execute_select [("a", QueryOutcome.success [⟨1, "e1"⟩, ⟨2, "e2"⟩]),
        ("b", QueryOutcome.success [⟨5, "e3"⟩])]).output =
      blockOutput [("a", QueryOutcome.success [⟨1, "e1"⟩, ⟨2, "e2"⟩]),
        ("b", QueryOutcome.success [⟨5, "e3"⟩])] ∧
    (execute_select [("a", QueryOutcome.success [⟨1, "e1"⟩, ⟨2, "e2"⟩]),
        ("b", QueryOutcome.success [⟨5, "e3"⟩])]).output.length =
      ([("a", QueryOutcome.success [⟨1, "e1"⟩, ⟨2, "e2"⟩]),
        ("b", QueryOutcome.success [⟨5, "e3"⟩])].map
          (fun p => (eventsOf p.2).length)).sum ∧
    (execute_select [("a", QueryOutcome.success [⟨1, "e1"⟩, ⟨2, "e2"⟩]),
        ("b", QueryOutcome.success [⟨5, "e3"⟩])]).term = Termination.normal) :=
  ⟨by decide, executor_success_emits_blocks _ (by decide)⟩

/-- C2: when the keys before global position `j` all succeed and the
`j`-th occurrence fails with a message, the run prints all records for
the earlier keys' successful outcomes, ends its output with exactly
one failure report naming the failing key and the message, prints no
record or report for any later key, and exits with status 1. -/
theorem run_first_failure_fail_fast
    (pre : List (String × QueryOutcome)) (u msg : String)
    (more : List String) (fo : QueryOutcome)
    (post : List (String × QueryOutcome)) (size : Int)
    (hsize : 1 ≤ size)
    (hpre : ∀ p ∈ pre, isSuccess p.2 = true)
    (hfo : fo = QueryOutcome.rowsError (msg :: more) ∨
      fo = QueryOutcome.traceError (msg :: more)) :
    ∃ r : ExecResult, run (pre ++ (u, fo) :: post) size = Except.ok r ∧
      (∃ before : List Line,
        r.output = before ++ [Line.errorReport u msg] ∧
        recordLines before = blockOutput pre ∧
        reportLines before = []) ∧
      r.term = Termination.exitOne := by
  have hs : 1 ≤ size.toNat := by omega
  obtain ⟨before, hout, hrec, hrep, hterm⟩ :=
    runChunks_chunksOf_fail size.toNat hs u msg more fo hfo pre.length pre post
      (Nat.le_refl _) hpre
  refine ⟨runChunks (chunksOf size.toNat (pre ++ (u, fo) :: post)), ?_,
    ⟨before, hout, hrec, hrep⟩, hterm⟩
  rw [run, chunked_iterable_pos _ _ hsize]
  rfl

theorem run_first_failure_fail_fast_witness :
    ∃ r : ExecResult,
      run ([("x", QueryOutcome.success [⟨1, "row"⟩])] ++
        ("y", QueryOutcome.rowsError ["timeout"]) ::
          [("z", QueryOutcome.success [⟨9, "later"⟩])]) 10 = Except.ok r ∧
      (∃ before : List Line,
        r.output = before ++ [Line.errorReport "y" "timeout"] ∧
        recordLines before =
          blockOutput [("x", QueryOutcome.success [⟨1, "row"⟩])] ∧
        reportLines before = []) ∧
      r.term = Termination.exitOne :=
  run_first_failure_fail_fast [("x", QueryOutcome.success [⟨1, "row"⟩])]
    "y" "timeout" [] (QueryOutcome.rowsError ["timeout"])
    [("z", QueryOutcome.success [⟨9, "later"⟩])] 10
    (by decide) (by decide) (Or.inl rfl)

/-- C3: for every chunk size `n` of at least 1, `chunked_iterable`
succeeds, the concatenation of its chunks is the original sequence in
order (so chunks do not overlap), every chunk except possibly the last
has length exactly `n`, and every chunk, the last included, has length
between 1 and `n`. -/
theorem chunked_iterable_partition (α : Type) (K : List α) (n : Int)
    (hn : 1 ≤ n) :
    ∃ cs : List (List α), chunked_iterable K n = Except.ok cs ∧
      cs.flatten = K ∧
      (∀ c ∈ cs.dropLast, c.length = n.toNat) ∧
      (∀ c ∈ cs, 1 ≤ c.length ∧ c.length ≤ n.toNat) := by
  have hs : 1 ≤ n.toNat := by omega
  exact ⟨chunksOf n.toNat K, chunked_iterable_pos K n hn,
    chunksOf_flatten n.toNat hs K,
    chunksOf_dropLast_bound n.toNat hs K.length K (Nat.le_refl _),
    chunksOf_mem_length_bound n.toNat hs K.length K (Nat.le_refl _)⟩

theorem chunked_iterable_partition_witness :
    ∃ cs : List (List String),
      chunked_iterable ["a", "b", "c", "d", "e"] 2 = Except.ok cs ∧
      cs.flatten = ["a", "b", "c", "d", "e"] ∧
      (∀ c ∈ cs.dropLast, c.length = (2 : Int).toNat) ∧
      (∀ c ∈ cs, 1 ≤ c.length ∧ c.length ≤ (2 : Int).toNat) :=
  chunked_iterable_partition String ["a", "b", "c", "d", "e"] 2 (by decide)

/-- C4 counterexample: in the chunk `["a", "b"]` the code awaits key
`a`'s query (`item.result()`) before it submits key `b`'s query, so
it is false that every query of the chunk is submitted before any is
awaited: the dispatch trace is submit a, await a, submit b, await b,
and the submissions do not form a prefix of it. -/
theorem dispatch_not_all_before_await :
    dispatchTrace ["a", "b"] =
      [DispatchEvent.submit "a", DispatchEvent.awaited "a",
        DispatchEvent.submit "b", DispatchEvent.awaited "b"] ∧
    ¬ submitsFirst (dispatchTrace ["a", "b"]) := by
  constructor
  · rfl
  · decide

/-- C4 amended: within a chunk each key occurrence's query is
submitted and then immediately awaited before the next key's query is
submitted, so at most one query of the chunk is in flight at any
time; the dispatch of key `i+1` starts only after key `i`'s query has
completed. -/
theorem dispatch_submit_await_alternates (keys : List String) :
    dispatchTrace keys = keys.flatMap
      (fun u => [DispatchEvent.submit u, DispatchEvent.awaited u]) := by
  induction keys with
  | nil => rfl
  | cons u t ih => simp [dispatchTrace, List.flatMap_cons, ih]

/-- C5 counterexample: for chunk size 0 on a nonempty key list the
generator's first slice is empty, so it stops at once and the run
silently succeeds with no chunks instead of failing with an
InvalidArgument error. -/
theorem chunk_size_zero_silently_succeeds :
    chunked_iterable ["a"] (0 : Int) = Except.ok [] := by
  simp [chunked_iterable, chunksOf]

/-- C5 amended: for a negative chunk size `chunked_iterable` raises
`ValueError` (Python's invalid-argument error) and emits no chunks,
but for chunk size exactly 0 it emits no chunks and terminates
normally without an error; in neither case does it loop
indefinitely. -/
theorem chunked_iterable_nonpositive (α : Type) (K : List α) (n : Int)
    (hn : n ≤ 0) :
    (n < 0 → ∃ e : String, chunked_iterable K n = Except.error e) ∧
    (n = 0 → chunked_iterable K n = Except.ok []) := by
  constructor
  · intro hneg
    exact ⟨_, by rw [chunked_iterable, if_pos hneg]⟩
  · intro h0
    subst h0
    rw [chunked_iterable, if_neg (by omega)]
    rw [show ((0 : Int).toNat) = 0 from rfl, chunksOf_zero]

theorem chunked_iterable_nonpositive_witness :
    (((-1 : Int) < 0 → ∃ e : String,
      chunked_iterable ["a"] (-1 : Int) = Except.error e) ∧
    ((-1 : Int) = 0 → chunked_iterable ["a"] (-1 : Int) = Except.ok [])) ∧
    ((0 : Int) = 0 → chunked_iterable ["b"] (0 : Int) = Except.ok []) :=
  ⟨chunked_iterable_nonpositive String ["a"] (-1) (by decide),
    (chunked_iterable_nonpositive String ["b"] 0 (by decide)).2⟩

/-- C6: a key occurrence whose query succeeds with zero trace events
contributes no output lines and no error: the whole execution is
identical to the execution without that occurrence, so the remaining
keys are processed normally. -/
theorem empty_trace_success_continues (u : String)
    (c1 c2 : List (String × QueryOutcome)) :
    execute_select (c1 ++ (u, QueryOutcome.success []) :: c2) =
      execute_select (c1 ++ c2) := by
  induction c1 with
  | nil => rfl
  | cons p t ih =>
    obtain ⟨v, o⟩ := p
    cases o with
    | success evs =>
      simp only [List.cons_append, execute_select, List.append_eq]
      rw [ih]
    | rowsError a => cases a <;> rfl
    | traceError a => cases a <;> rfl

/-- C7: a failure while retrieving the trace of an already successful
query (`item.get_query_trace()` raising) is handled by the very same
`except` clause as a failure of the query itself: the execution is
identical to the one where `item.result()` raised with the same
arguments, the key is reported with the error message, `sys.exit(1)`
ends the run, and later chunks are never processed. -/
theorem trace_failure_treated_as_query_failure (u msg : String)
    (args more : List String) (c1 c2 : List (String × QueryOutcome))
    (cs : List (List (String × QueryOutcome))) :
    execute_select (c1 ++ (u, QueryOutcome.traceError args) :: c2) =
      execute_select (c1 ++ (u, QueryOutcome.rowsError args) :: c2) ∧
    execute_select ((u, QueryOutcome.traceError (msg :: more)) :: c2) =
      ⟨[Line.errorReport u msg], Termination.exitOne⟩ ∧
    runChunks (((u, QueryOutcome.traceError (msg :: more)) :: c2) :: cs) =
      ⟨[Line.chunkEcho (u :: c2.map Prod.fst), Line.errorReport u msg],
        Termination.exitOne⟩ :=
  ⟨execute_select_trace_eq_rows u args c1 c2, rfl, rfl⟩

/-- C8: duplicate keys are not deduplicated: each occurrence of a key
is looked up on its own and reported on its own, so two occurrences
of the same key inside an otherwise successful chunk yield two
separate record blocks, one per occurrence, each with that
occurrence's own trace events. -/
theorem duplicate_keys_reported_independently (k : String)
    (e1 e2 : List TraceEvent) (l1 l2 l3 : List (String × QueryOutcome))
    (h1 : ∀ p ∈ l1, isSuccess p.2 = true)
    (h2 : ∀ p ∈ l2, isSuccess p.2 = true)
    (h3 : ∀ p ∈ l3, isSuccess p.2 = true) :
    (execute_select (l1 ++ (k, QueryOutcome.success e1) ::
        (l2 ++ (k, QueryOutcome.success e2) :: l3))).output =
      blockOutput l1 ++ recordsFor k e1 ++ blockOutput l2 ++
        recordsFor k e2 ++ blockOutput l3 ∧
    (execute_select (l1 ++ (k, QueryOutcome.success e1) ::
        (l2 ++ (k, QueryOutcome.success e2) :: l3))).term =
      Termination.normal := by
  have hall : ∀ p ∈ l1 ++ (k, QueryOutcome.success e1) ::
      (l2 ++ (k, QueryOutcome.success e2) :: l3), isSuccess p.2 = true := by
    intro p hp
    rcases List.mem_append.mp hp with h | h
    · exact h1 p h
    · rcases List.mem_cons.mp h with h | h
      · subst h; rfl
      · rcases List.mem_append.mp h with h | h
        · exact h2 p h
        · rcases List.mem_cons.mp h with h | h
          · subst h; rfl
          · exact h3 p h
  rw [execute_select_all_ok _ hall]
  refine ⟨?_, rfl⟩
  simp [blockOutput_append, blockOutput_cons, eventsOf, List.append_assoc]

theorem duplicate_keys_reported_independently_witness :
    (execute_select ([] ++ ("a", QueryOutcome.success [⟨1, "x"⟩]) ::
        ([] ++ ("a", QueryOutcome.success [⟨2, "y"⟩]) :: []))).output =
      blockOutput [] ++ recordsFor "a" [⟨1, "x"⟩] ++ blockOutput [] ++
        recordsFor "a" [⟨2, "y"⟩] ++ blockOutput [] ∧
    (execute_select ([] ++ ("a", QueryOutcome.success [⟨1, "x"⟩]) ::
        ([] ++ ("a", QueryOutcome.success [⟨2, "y"⟩]) :: []))).term =
      Termination.normal :=
  duplicate_keys_reported_independently "a" [⟨1, "x"⟩] [⟨2, "y"⟩] [] [] []
    (by decide) (by decide) (by decide)

/-- C9: the chunk generator never yields an empty chunk (its loop
breaks at the first empty slice), and the run's output decomposes
into per-chunk segments each of which starts with the chunk's echo
line followed by that chunk's records, so a chunk's echo always
precedes every trace record of its keys and is printed exactly once
per processed chunk. -/
theorem chunks_nonempty_and_echo_precedes :
    (∀ (α : Type) (K : List α) (n : Int) (cs : List (List α)),
      chunked_iterable K n = Except.ok cs → ∀ c ∈ cs, c ≠ []) ∧
    (∀ cs : List (List (String × QueryOutcome)), ∃ m : Nat, m ≤ cs.length ∧
      (runChunks cs).output = (cs.take m).flatMap
        (fun c => Line.chunkEcho (c.map Prod.fst) ::
          (execute_select c).output)) := by
  constructor
  · intro α K n cs hok c hc
    rw [chunked_iterable] at hok
    by_cases hneg : n < 0
    · rw [if_pos hneg] at hok
      exact Except.noConfusion hok
    · rw [if_neg hneg] at hok
      injection hok with h
      subst h
      exact chunksOf_mem_ne_nil n.toNat K c hc
  · exact runChunks_echo_blocks

theorem chunks_nonempty_and_echo_precedes_witness :
    (["a"] : List String) ≠ [] ∧
    (∃ m : Nat, m ≤ [[("a", QueryOutcome.success [⟨1, "e"⟩])]].length ∧
      (runChunks [[("a", QueryOutcome.success [⟨1, "e"⟩])]]).output =
        ([[("a", QueryOutcome.success [⟨1, "e"⟩])]].take m).flatMap
          (fun c => Line.chunkEcho (c.map Prod.fst) ::
            (execute_select c).output)) :=
  ⟨chunks_nonempty_and_echo_precedes.1 String ["a", "b"] 1 [["a"], ["b"]]
      (by simp [chunked_iterable, chunksOf]) ["a"] (by simp),
    chunks_nonempty_and_echo_precedes.2 [[("a", QueryOutcome.success [⟨1, "e"⟩])]]⟩

/-- C10: when the caught exception's `args` tuple is empty, the
report line's `x.args[0]` itself raises `IndexError`, so no report
line naming the key is printed and the process dies abnormally
instead of reaching `sys.exit(1)`; this holds whether the exception
came from `item.result()` or from `item.get_query_trace()`. -/
theorem empty_args_report_crash (u : String)
    (c2 : List (String × QueryOutcome)) :
    execute_select ((u, QueryOutcome.rowsError []) :: c2) =
      ⟨[], Termination.crashIndexError⟩ ∧
    execute_select ((u, QueryOutcome.traceError []) :: c2) =
      ⟨[], Termination.crashIndexError⟩ ∧
    reportLines (execute_select ((u, QueryOutcome.rowsError []) :: c2)).output =
      [] :=
  ⟨rfl, rfl, rfl⟩
